import Mathlib

/-!
Verification of the booking core of a single-room reservation bot
(bot.py): slot generation, per-minute blended pricing, and the
overlap/conflict check, shallowly embedded in Lean.

Modelling conventions:
- Instants are modelled at one-minute resolution, as integers counting
  minutes on the local timeline (minutes since local midnight of a
  reference day; values may exceed 1440 or be negative). Every call
  site in the source builds whole-minute datetimes, so nothing is lost.
- The local-to-UTC conversion used when persisting rows is a fixed
  offset, since the configured zone (Europe/Moscow, UTC+3) has observed
  no DST since 2014; toUtcSec maps local minutes to epoch seconds.
- Python float arithmetic in the pricing loop is modelled with exact
  rationals. Every reachable total has denominator 1 or 3, which is far
  more than the float error away from the half-integer rounding ties,
  so the rational model is faithful.
- Python int(round(total, 0)) rounds half to even; pyRound implements
  that rounding on rationals.
- Database rows keep only the columns some query or claim consults:
  start_ts, end_ts, duration_min, price_total, status.
-/

set_option maxRecDepth 8000

namespace GameRoomBot

/-- Opening time, 13:00 local, as minutes from local midnight (OPEN_TIME). -/
def OPEN_MIN : ℤ := 13 * 60

/-- Closing time, 02:00 local of the following day, as minutes from the
opening day midnight (CLOSE_TIME). -/
def CLOSE_MIN : ℤ := 26 * 60

/-- Slot grid step in minutes (SLOT_STEP_MIN). -/
def SLOT_STEP_MIN : ℤ := 60

/-- Cleaning buffer in minutes (BUFFER_MIN). -/
def BUFFER_MIN : ℤ := 10

/-- Day rate in rubles per hour, for local time of day in [13:00, 18:00) (DAY_RATE). -/
def DAY_RATE : ℤ := 400

/-- Evening rate in rubles per hour, for every other local time of day (EVE_RATE). -/
def EVE_RATE : ℤ := 500

/-- Fixed local-zone offset in minutes (Europe/Moscow, UTC+3). -/
def TZ_OFFSET_MIN : ℤ := 180

/-- Epoch seconds of a local instant given in minutes: the composition
int(to_utc(dt).timestamp()) used when rows are persisted and queried. -/
def toUtcSec (m : ℤ) : ℤ := 60 * (m - TZ_OFFSET_MIN)

/-- Reservation status, the status column of the bookings table. -/
inductive Status
  | pending
  | confirmed
  | cancelled
  | blocked
  deriving DecidableEq

/-- A persisted bookings row, restricted to the columns the core logic
reads: interval endpoints in epoch seconds, duration in minutes, total
price, status. -/
structure Booking where
  start_ts : ℤ
  end_ts : ℤ
  duration_min : ℤ
  price_total : ℤ
  status : Status
  deriving DecidableEq

/-- The status IN (pending, confirmed, blocked) filter of the SQL query
inside overlaps. -/
def statusActive : Status → Bool
  | .pending => true
  | .confirmed => true
  | .blocked => true
  | .cancelled => false

/-- The overlaps query: some active row satisfies
NOT (end_ts <= s OR start_ts >= e), where s and e are the epoch-second
endpoints handed in by the caller. -/
def overlaps (rows : List Booking) (s e : ℤ) : Bool :=
  rows.any fun b =>
    statusActive b.status && !(decide (b.end_ts ≤ s) || decide (b.start_ts ≥ e))

/-- Rate selection for one minute of the pricing loop: DAY_RATE when the
local time of day of cur (its minute count modulo 1440) lies in
[13:00, 18:00), EVE_RATE otherwise. -/
def minuteRate (m : ℤ) : ℤ :=
  if 13 * 60 ≤ m % 1440 ∧ m % 1440 < 18 * 60 then DAY_RATE else EVE_RATE

/-- The while loop of price_for_interval: one iteration per minute of
the interval, each adding rate/60; the second argument is the number of
remaining minutes, end minus cur. -/
def priceLoop (cur : ℤ) : ℕ → ℚ
  | 0 => 0
  | n + 1 => (minuteRate cur : ℚ) / 60 + priceLoop (cur + 1) n

/-- Python round(x, 0) on the accumulated total: round half to even. -/
def pyRound (x : ℚ) : ℤ :=
  if x - (⌊x⌋ : ℚ) < 1 / 2 then ⌊x⌋
  else if 1 / 2 < x - (⌊x⌋ : ℚ) then ⌊x⌋ + 1
  else if ⌊x⌋ % 2 = 0 then ⌊x⌋ else ⌊x⌋ + 1

/-- price_for_interval: per-minute base accrual, then the squad
surcharge of 100 rubles per hour over the whole booked duration (the
source computes minutes as floor division of total seconds by 60, which
at minute resolution is exactly the signed difference), then the flat
headset surcharge of 150, rounded once at the end. -/
def price_for_interval (start_local end_local : ℤ)
    (gamepads_mode : String) (headsets : Bool) : ℤ :=
  let base := priceLoop start_local (end_local - start_local).toNat
  let withPads :=
    if gamepads_mode = "squad" then
      base + 100 / 60 * ((end_local - start_local : ℤ) : ℚ)
    else base
  let total := if headsets then withPads + 150 else withPads
  pyRound total

/-- The commit-time availability check inside enter_phone: the candidate
end is extended forward by the buffer before the overlap query runs. -/
def hasConflict (rows : List Booking) (startMin durMin : ℤ) : Bool :=
  overlaps rows (toUtcSec startMin) (toUtcSec (startMin + durMin + BUFFER_MIN))

/-- The commit step of enter_phone: run the buffered conflict check and,
when it is clear, insert a pending row holding the unbuffered interval
and the price of the unbuffered interval. Returns the inserted row, or
none on conflict. -/
def enter_phone_commit (rows : List Booking) (startMin durMin : ℤ)
    (gamepads_mode : String) (headsets : Bool) : Option Booking :=
  if hasConflict rows startMin durMin then none
  else some
    { start_ts := toUtcSec startMin
      end_ts := toUtcSec (startMin + durMin)
      duration_min := durMin
      price_total := price_for_interval startMin (startMin + durMin) gamepads_mode headsets
      status := Status.pending }

/-- The commit step of admin_block: check the unbuffered interval and
insert a blocked row with price 0. -/
def admin_block_commit (rows : List Booking) (startMin durMin : ℤ) : Option Booking :=
  if overlaps rows (toUtcSec startMin) (toUtcSec (startMin + durMin)) then none
  else some
    { start_ts := toUtcSec startMin
      end_ts := toUtcSec (startMin + durMin)
      duration_min := durMin
      price_total := 0
      status := Status.blocked }

/-- The while loop of iter_open_slots: starting at cur, append
(cur, cur + dur) while cur + dur + buffer fits before closing, stepping
by the slot grid step. -/
def slotsFrom (cur dur : ℤ) : List (ℤ × ℤ) :=
  if _h : cur + dur + BUFFER_MIN ≤ CLOSE_MIN then
    (cur, cur + dur) :: slotsFrom (cur + SLOT_STEP_MIN) dur
  else []
  termination_by (CLOSE_MIN + 1 - BUFFER_MIN - dur - cur).toNat
  decreasing_by
    simp only [BUFFER_MIN, CLOSE_MIN, SLOT_STEP_MIN] at *
    omega

/-- iter_open_slots for one business day, with the opening instant
13:00 placed at minute 780 of the local timeline. -/
def iter_open_slots (dur : ℤ) : List (ℤ × ℤ) := slotsFrom OPEN_MIN dur

/-- Definition following the spec wording for the per-minute base
charge: a minute whose local time of day lies in [13:00, 18:00)
contributes dayRate/60, every other minute (the evening band, which
wraps past midnight) contributes eveRate/60, the band membership being
evaluated on a modular 24-hour clock. -/
def specMinuteCharge (m : ℤ) : ℚ :=
  if 13 * 60 ≤ m % 1440 ∧ m % 1440 < 18 * 60 then (DAY_RATE : ℚ) / 60
  else (EVE_RATE : ℚ) / 60

/-- Integer-valued companion of the pricing loop: the sum of the
per-minute rates over the interval, before the division by 60. Rational
arithmetic does not reduce in the kernel, so concrete price evaluations
go through this sum. -/
def rateSum (cur : ℤ) : ℕ → ℤ
  | 0 => 0
  | n + 1 => minuteRate cur + rateSum (cur + 1) n

lemma priceLoop_eq_rateSum (cur : ℤ) (n : ℕ) :
    priceLoop cur n = (rateSum cur n : ℚ) / 60 := by
  induction n generalizing cur with
  | zero => simp [priceLoop, rateSum]
  | succ k ih =>
    simp only [priceLoop, rateSum, ih (cur + 1)]
    push_cast
    ring

lemma pyRound_intCast (n : ℤ) : pyRound (n : ℚ) = n := by
  simp [pyRound, Int.floor_intCast]

/-- Restructured form of the pricing function, flattening the two
surcharge branches into addends, used to evaluate concrete prices. -/
lemma price_for_interval_eq (s e : ℤ) (mode : String) (hs : Bool) :
    price_for_interval s e mode hs =
      pyRound ((rateSum s (e - s).toNat : ℚ) / 60
        + (if mode = "squad" then 100 / 60 * ((e - s : ℤ) : ℚ) else 0)
        + (if hs then (150 : ℚ) else 0)) := by
  unfold price_for_interval
  rw [priceLoop_eq_rateSum]
  by_cases hm : mode = "squad" <;> cases hs <;> simp [hm]

lemma price_concrete {s e : ℤ} {mode : String} {hs : Bool} (r : ℤ) {n : ℤ}
    (hr : rateSum s (e - s).toNat = r)
    (ht : (r : ℚ) / 60
        + (if mode = "squad" then 100 / 60 * ((e - s : ℤ) : ℚ) else 0)
        + (if hs then (150 : ℚ) else 0) = (n : ℚ)) :
    price_for_interval s e mode hs = n := by
  rw [price_for_interval_eq, hr, ht, pyRound_intCast]

lemma price_780_840 : price_for_interval 780 840 "duo" false = 400 :=
  price_concrete 24000 (by decide) (by norm_num <;> decide)

lemma price_1020_1140_squad : price_for_interval 1020 1140 "squad" false = 1100 :=
  price_concrete 54000 (by decide) (by norm_num <;> decide)

lemma price_1020_1140_squad_hs : price_for_interval 1020 1140 "squad" true = 1250 :=
  price_concrete 54000 (by decide) (by norm_num <;> decide)

lemma price_840_780_squad : price_for_interval 840 780 "squad" false = -100 :=
  price_concrete 0 (by decide) (by norm_num <;> decide)

lemma price_600_660 : price_for_interval 600 660 "duo" false = 500 :=
  price_concrete 30000 (by decide) (by norm_num <;> decide)

lemma price_1050_1110 : price_for_interval 1050 1110 "duo" false = 450 :=
  price_concrete 27000 (by decide) (by norm_num <;> decide)

lemma pyRound_le (x : ℚ) : (pyRound x : ℚ) ≤ x + 1 / 2 := by
  have h1 : (⌊x⌋ : ℚ) ≤ x := Int.floor_le x
  have h2 : x < (⌊x⌋ : ℚ) + 1 := Int.lt_floor_add_one x
  unfold pyRound
  split_ifs <;> push_cast <;> linarith

lemma pyRound_ge (x : ℚ) : x - 1 / 2 ≤ (pyRound x : ℚ) := by
  have h1 : (⌊x⌋ : ℚ) ≤ x := Int.floor_le x
  have h2 : x < (⌊x⌋ : ℚ) + 1 := Int.lt_floor_add_one x
  unfold pyRound
  split_ifs <;> push_cast <;> linarith

lemma pyRound_near (x : ℚ) : |(pyRound x : ℚ) - x| ≤ 1 / 2 :=
  abs_le.mpr ⟨by linarith [pyRound_ge x], by linarith [pyRound_le x]⟩

lemma pyRound_mono {x y : ℚ} (h : x ≤ y) : pyRound x ≤ pyRound y := by
  by_contra hlt
  push_neg at hlt
  have h1 : (pyRound y : ℚ) + 1 ≤ (pyRound x : ℚ) := by
    exact_mod_cast Int.add_one_le_iff.mpr hlt
  have h2 := pyRound_le x
  have h3 := pyRound_ge y
  have h4 : x = y := le_antisymm h (by linarith)
  rw [h4] at hlt
  exact lt_irrefl _ hlt

lemma rateSum_append (cur : ℤ) (m n : ℕ) :
    rateSum cur (m + n) = rateSum cur m + rateSum (cur + m) n := by
  induction m generalizing cur with
  | zero => simp [rateSum]
  | succ k ih =>
    have hshape : k + 1 + n = (k + n) + 1 := by omega
    rw [hshape]
    simp only [rateSum, ih (cur + 1)]
    have harg : cur + 1 + (k : ℤ) = cur + ((k : ℤ) + 1) := by ring
    push_cast
    rw [harg]
    ring

lemma rateSum_nonneg (cur : ℤ) (n : ℕ) : 0 ≤ rateSum cur n := by
  induction n generalizing cur with
  | zero => simp [rateSum]
  | succ k ih =>
    have hr : (0 : ℤ) ≤ minuteRate cur := by
      unfold minuteRate DAY_RATE EVE_RATE
      split_ifs <;> norm_num
    simpa [rateSum] using add_nonneg hr (ih (cur + 1))

lemma specMinuteCharge_eq (m : ℤ) : specMinuteCharge m = (minuteRate m : ℚ) / 60 := by
  unfold specMinuteCharge minuteRate
  split_ifs <;> simp

lemma priceLoop_eq_specSum (s : ℤ) (n : ℕ) :
    priceLoop s n = ∑ i in Finset.range n, specMinuteCharge (s + i) := by
  induction n generalizing s with
  | zero => simp [priceLoop]
  | succ k ih =>
    rw [Finset.sum_range_succ']
    simp only [priceLoop]
    rw [ih (s + 1)]
    have hhead : specMinuteCharge (s + (0 : ℕ)) = (minuteRate s : ℚ) / 60 := by
      rw [specMinuteCharge_eq]
      norm_num
    rw [hhead]
    have hbody : ∀ i ∈ Finset.range k,
        specMinuteCharge (s + ((i : ℕ) + 1 : ℕ)) = specMinuteCharge (s + 1 + i) := by
      intro i _
      congr 1
      push_cast
      ring
    rw [Finset.sum_congr rfl hbody]
    ring

lemma slotsFrom_mem {cur dur : ℤ} :
    ∀ x ∈ slotsFrom cur dur,
      cur ≤ x.1 ∧ x.1 + dur + BUFFER_MIN ≤ CLOSE_MIN ∧ x.2 = x.1 + dur ∧
        ∃ k : ℕ, x.1 = cur + SLOT_STEP_MIN * k := by
  induction cur, dur using slotsFrom.induct with
  | case1 cur dur h ih =>
    intro x hx
    rw [slotsFrom, dif_pos h] at hx
    rcases List.mem_cons.mp hx with rfl | hx2
    · exact ⟨le_refl _, h, rfl, 0, by ring⟩
    · obtain ⟨h1, h2, h3, k, hk⟩ := ih x hx2
      refine ⟨?_, h2, h3, k + 1, ?_⟩
      · simp only [SLOT_STEP_MIN] at h1
        omega
      · simp only [SLOT_STEP_MIN] at hk ⊢
        push_cast at hk ⊢
        omega
  | case2 cur dur h =>
    intro x hx
    rw [slotsFrom, dif_neg h] at hx
    simp at hx

lemma slotsFrom_chain (cur dur : ℤ) :
    List.Chain' (fun a b : ℤ × ℤ => a.1 < b.1) (slotsFrom cur dur) := by
  induction cur, dur using slotsFrom.induct with
  | case1 cur dur h ih =>
    rw [slotsFrom, dif_pos h]
    refine List.chain'_cons'.mpr ⟨?_, ih⟩
    intro y hy
    have hmem : y ∈ slotsFrom (cur + SLOT_STEP_MIN) dur := List.mem_of_mem_head? hy
    have h1 := (slotsFrom_mem y hmem).1
    simp only [SLOT_STEP_MIN] at h1
    omega
  | case2 cur dur h =>
    rw [slotsFrom, dif_neg h]
    exact List.chain'_nil

lemma iter_open_slots_empty {dur : ℤ}
    (h : ∀ k : ℕ, ¬(OPEN_MIN + SLOT_STEP_MIN * k + dur + BUFFER_MIN ≤ CLOSE_MIN)) :
    iter_open_slots dur = [] := by
  have h0 : ¬(OPEN_MIN + dur + BUFFER_MIN ≤ CLOSE_MIN) := by
    have := h 0
    push_cast at this
    simpa using this
  rw [iter_open_slots, slotsFrom, dif_neg h0]

lemma statusActive_iff (st : Status) :
    statusActive st = true ↔
      (st = Status.pending ∨ st = Status.confirmed ∨ st = Status.blocked) := by
  cases st <;> simp [statusActive]

lemma toUtcSec_add_buffer (s dur : ℤ) :
    toUtcSec (s + dur + BUFFER_MIN) = toUtcSec (s + dur) + 60 * BUFFER_MIN := by
  unfold toUtcSec
  ring

/-- Claim C1: code evaluation at the failing scenario. With a stored
active reservation occupying 14:00 to 15:00 (minutes 840 to 900) and
buffer 10, the commit-time check reports NO conflict for the candidate
15:05 to 16:00 (gap 5 minutes), none for 15:10 to 16:00, and none even
for a back-to-back candidate starting at 15:00: the buffer extends the
candidate end only, so a mandatory gap after an earlier reservation is
never enforced, contrary to the claim and to the ten-minute buffer
announced in the rules text of the bot itself. -/
theorem buffer_gap_after_existing_not_enforced :
    hasConflict [⟨toUtcSec 840, toUtcSec 900, 60, 400, Status.confirmed⟩] 905 55 = false ∧
    hasConflict [⟨toUtcSec 840, toUtcSec 900, 60, 400, Status.confirmed⟩] 910 50 = false ∧
    hasConflict [⟨toUtcSec 840, toUtcSec 900, 60, 400, Status.confirmed⟩] 900 60 = false := by
  decide

/-- Claim C2: the commit-time conflict check returns true iff the
candidate interval with its end extended forward by the buffer overlaps
some stored reservation with status in the set pending, confirmed,
blocked, overlap meaning NOT (a.end <= b.start OR a.start >= b.end);
and a ledger of cancelled reservations never causes a conflict. -/
theorem conflict_iff_buffered_overlap (rows : List Booking) (s dur : ℤ) :
    (hasConflict rows s dur = true ↔
      ∃ b ∈ rows,
        (b.status = Status.pending ∨ b.status = Status.confirmed ∨ b.status = Status.blocked) ∧
        ¬(b.end_ts ≤ toUtcSec s ∨ b.start_ts ≥ toUtcSec (s + dur) + 60 * BUFFER_MIN)) ∧
    ((∀ b ∈ rows, b.status = Status.cancelled) → hasConflict rows s dur = false) := by
  constructor
  · rw [hasConflict, toUtcSec_add_buffer, overlaps, List.any_eq_true]
    refine exists_congr fun b => and_congr_right fun _ => ?_
    rw [Bool.and_eq_true, statusActive_iff]
    refine and_congr_right fun _ => ?_
    simp only [Bool.not_eq_true', Bool.or_eq_false_iff, decide_eq_false_iff_not, not_or, ge_iff_le]
  · intro hall
    rw [hasConflict, overlaps, List.any_eq_false]
    intro b hb
    rw [hall b hb]
    simp [statusActive]

theorem conflict_iff_buffered_overlap_witness :
    hasConflict [⟨0, 100, 1, 0, Status.cancelled⟩] 0 60 = false :=
  (conflict_iff_buffered_overlap [⟨0, 100, 1, 0, Status.cancelled⟩] 0 60).2 (by
    intro b hb
    rw [List.mem_singleton] at hb
    rw [hb])

/-- Claim C3: pricing scenarios with rates 400 and 500 per hour. The
interval 13:00 to 14:00 with no addons prices to 400; 17:00 to 19:00
with the squad tier prices to 1100; adding the flat headset surcharge
gives 1250. -/
theorem pricing_scenarios :
    price_for_interval 780 840 "duo" false = 400 ∧
    price_for_interval 1020 1140 "squad" false = 1100 ∧
    price_for_interval 1020 1140 "squad" true = 1250 :=
  ⟨price_780_840, price_1020_1140_squad, price_1020_1140_squad_hs⟩

/-- Claim C4: for a positive-length interval the base price with no
addons is the per-minute sum of dayRate/60 or eveRate/60 decided by the
local time of day on a modular 24-hour clock, rounded once at the end;
the rounding is to a nearest integer (distance at most one half); and
the interval 17:30 to 18:30 prices 30 day minutes plus 30 evening
minutes summed before rounding, giving 450. -/
theorem base_price_minute_sum_rounded_once :
    (∀ s e : ℤ, s < e →
      price_for_interval s e "duo" false =
        pyRound (∑ i in Finset.range (e - s).toNat, specMinuteCharge (s + i))) ∧
    (∀ x : ℚ, |(pyRound x : ℚ) - x| ≤ 1 / 2) ∧
    price_for_interval 1050 1110 "duo" false = pyRound ((30 * 400 + 30 * 500 : ℚ) / 60) ∧
    price_for_interval 1050 1110 "duo" false = 450 := by
  refine ⟨?_, pyRound_near, ?_, price_1050_1110⟩
  · intro s e _
    rw [price_for_interval_eq, if_neg (by decide), if_neg (by decide),
      ← priceLoop_eq_rateSum, priceLoop_eq_specSum]
    norm_num
  · have hval : ((30 * 400 + 30 * 500 : ℚ)) / 60 = ((450 : ℤ) : ℚ) := by norm_num
    rw [price_1050_1110, hval, pyRound_intCast]

theorem base_price_minute_sum_witness :
    price_for_interval 780 840 "duo" false =
      pyRound (∑ i in Finset.range (((840 : ℤ) - 780)).toNat, specMinuteCharge (780 + i)) :=
  base_price_minute_sum_rounded_once.1 780 840 (by norm_num)

/-- Claim C5: every slot returned by the generator starts at or after
the opening instant, fits with its duration and the buffer before the
closing instant, has end equal to start plus duration, lies on the
fixed step grid anchored at the opening instant; the sequence is
ordered earliest first; and when no grid candidate satisfies the
closing constraint the result is the empty list. -/
theorem open_slots_bounds_grid_ordered_empty (dur : ℤ) :
    (∀ x ∈ iter_open_slots dur,
      OPEN_MIN ≤ x.1 ∧ x.1 + dur + BUFFER_MIN ≤ CLOSE_MIN ∧ x.2 = x.1 + dur ∧
        ∃ k : ℕ, x.1 = OPEN_MIN + SLOT_STEP_MIN * k) ∧
    List.Chain' (fun a b : ℤ × ℤ => a.1 < b.1) (iter_open_slots dur) ∧
    ((∀ k : ℕ, ¬(OPEN_MIN + SLOT_STEP_MIN * k + dur + BUFFER_MIN ≤ CLOSE_MIN)) →
      iter_open_slots dur = []) :=
  ⟨fun x hx => slotsFrom_mem x hx, slotsFrom_chain OPEN_MIN dur,
    fun h => iter_open_slots_empty h⟩

theorem open_slots_empty_witness : iter_open_slots 800 = [] :=
  (open_slots_bounds_grid_ordered_empty 800).2.2 (by
    intro k
    simp only [OPEN_MIN, SLOT_STEP_MIN, BUFFER_MIN, CLOSE_MIN]
    omega)

/-- Claim C6 counterexample: the pricing function does not reject a
negative-length interval; on the interval from minute 840 back to
minute 780 with the squad tier it runs the surcharge logic on the
negative duration and returns the price -100 instead of failing. -/
theorem pricing_no_rejection_counterexample :
    price_for_interval 840 780 "squad" false = -100 :=
  price_840_780_squad

/-- Claim C6 as amended: for an interval with end at or before start
the pricing operation does not reject; the per-minute loop contributes
nothing and the result is the rounded addon-only total — zero with no
addons, with the squad per-hour charge applied even to the non-positive
signed duration. -/
theorem pricing_nonpositive_interval_addons_only (s e : ℤ) (mode : String) (hs : Bool)
    (h : e ≤ s) :
    price_for_interval s e mode hs =
      pyRound ((if mode = "squad" then 100 / 60 * ((e - s : ℤ) : ℚ) else 0)
        + (if hs then (150 : ℚ) else 0)) := by
  have hn : (e - s).toNat = 0 := by omega
  rw [price_for_interval_eq, hn]
  norm_num [rateSum]

theorem pricing_nonpositive_witness :
    price_for_interval 840 840 "duo" false =
      pyRound ((if ("duo" : String) = "squad" then 100 / 60 * ((((840 : ℤ) - 840 : ℤ)) : ℚ) else 0)
        + (if (false : Bool) then (150 : ℚ) else 0)) :=
  pricing_nonpositive_interval_addons_only 840 840 "duo" false (le_refl _)

/-- Claim C7 counterexample: the commit-time conflict check is not
symmetric. With buffer 10, candidate 0 to 10 conflicts with a stored
reservation 15 to 25, but candidate 15 to 25 does not conflict with a
stored reservation 0 to 10, because only the candidate end is extended
by the buffer. -/
theorem conflict_buffer_asymmetric_counterexample :
    hasConflict [⟨toUtcSec 15, toUtcSec 25, 10, 0, Status.pending⟩] 0 10 = true ∧
    hasConflict [⟨toUtcSec 0, toUtcSec 10, 10, 0, Status.pending⟩] 15 10 = false := by
  decide

/-- Claim C7 as amended: the raw two-interval overlap test used inside
the conflict check, without the buffer extension of the candidate end,
is symmetric: checking interval A against a ledger holding only B
equals checking B against a ledger holding only A. -/
theorem overlaps_symmetric_without_buffer (sa ea sb eb : ℤ) :
    overlaps [⟨sb, eb, 0, 0, Status.pending⟩] sa ea =
      overlaps [⟨sa, ea, 0, 0, Status.pending⟩] sb eb := by
  simp only [overlaps, List.any_cons, List.any_nil, statusActive, Bool.true_and, Bool.or_false]
  rw [Bool.eq_iff_iff]
  simp only [Bool.not_eq_true', Bool.or_eq_false_iff, decide_eq_false_iff_not, not_le, ge_iff_le]
  omega

/-- Claim C8: pricing is monotone in duration. For a fixed start,
any addon selection and positive duration, extending the interval by a
positive step never decreases the total price. -/
theorem pricing_monotone_in_duration (start d step : ℤ) (mode : String) (hp : Bool)
    (hd : 0 < d) (hstep : 0 < step) :
    price_for_interval start (start + d) mode hp ≤
      price_for_interval start (start + d + step) mode hp := by
  rw [price_for_interval_eq, price_for_interval_eq]
  have h1 : start + d - start = d := by ring
  have h2 : start + d + step - start = d + step := by ring
  rw [h1, h2]
  apply pyRound_mono
  have h3 : (d + step).toNat = d.toNat + step.toNat := by omega
  rw [h3, rateSum_append]
  have hd0 : ((d.toNat : ℤ)) = d := Int.toNat_of_nonneg (le_of_lt hd)
  rw [hd0]
  have hB : (0 : ℚ) ≤ ((rateSum (start + d) step.toNat : ℤ) : ℚ) := by
    exact_mod_cast rateSum_nonneg _ _
  have hsq : (0 : ℚ) < ((step : ℤ) : ℚ) := by exact_mod_cast hstep
  by_cases hm : mode = "squad" <;> cases hp <;> simp [hm] <;>
    push_cast <;> linarith

theorem pricing_monotone_witness :
    price_for_interval 780 (780 + 60) "duo" false ≤
      price_for_interval 780 (780 + 60 + 60) "duo" false :=
  pricing_monotone_in_duration 780 60 60 "duo" false (by norm_num) (by norm_num)

lemma enter_phone_commit_eval :
    enter_phone_commit [] 780 60 "duo" false =
      some ⟨36000, 39600, 60, 400, Status.pending⟩ := by
  rw [enter_phone_commit, if_neg (by decide)]
  have h780 : (780 : ℤ) + 60 = 840 := by norm_num
  rw [h780, price_780_840]
  norm_num [toUtcSec, TZ_OFFSET_MIN]

lemma admin_block_commit_eval :
    admin_block_commit [] 780 60 = some ⟨36000, 39600, 60, 0, Status.blocked⟩ := by
  rw [admin_block_commit, if_neg (by decide)]
  norm_num [toUtcSec, TZ_OFFSET_MIN]

/-- Claim C9: a row persisted by a successful booking commit satisfies
end_ts minus start_ts equal to exactly 60 times the duration in minutes
(the buffer is used only transiently in the conflict check, never in
the stored interval) and carries status pending; a row persisted by an
admin block satisfies the same interval equation and carries status
blocked. -/
theorem stored_row_unbuffered_and_status (rows : List Booking) (s dur : ℤ)
    (mode : String) (hp : Bool) (b bb : Booking) :
    (enter_phone_commit rows s dur mode hp = some b →
      b.end_ts - b.start_ts = 60 * dur ∧ b.status = Status.pending) ∧
    (admin_block_commit rows s dur = some bb →
      bb.end_ts - bb.start_ts = 60 * dur ∧ bb.status = Status.blocked) := by
  constructor
  · intro h1
    rw [enter_phone_commit] at h1
    by_cases hc : hasConflict rows s dur = true
    · rw [if_pos hc] at h1
      cases h1
    · rw [if_neg hc] at h1
      injection h1 with h1
      subst h1
      refine ⟨?_, rfl⟩
      show toUtcSec (s + dur) - toUtcSec s = 60 * dur
      unfold toUtcSec
      ring
  · intro h2
    rw [admin_block_commit] at h2
    by_cases hc : overlaps rows (toUtcSec s) (toUtcSec (s + dur)) = true
    · rw [if_pos hc] at h2
      cases h2
    · rw [if_neg hc] at h2
      injection h2 with h2
      subst h2
      refine ⟨?_, rfl⟩
      show toUtcSec (s + dur) - toUtcSec s = 60 * dur
      unfold toUtcSec
      ring

theorem stored_row_witness :
    (((⟨36000, 39600, 60, 400, Status.pending⟩ : Booking).end_ts
        - (⟨36000, 39600, 60, 400, Status.pending⟩ : Booking).start_ts = 60 * 60
      ∧ (⟨36000, 39600, 60, 400, Status.pending⟩ : Booking).status = Status.pending) ∧
     ((⟨36000, 39600, 60, 0, Status.blocked⟩ : Booking).end_ts
        - (⟨36000, 39600, 60, 0, Status.blocked⟩ : Booking).start_ts = 60 * 60
      ∧ (⟨36000, 39600, 60, 0, Status.blocked⟩ : Booking).status = Status.blocked)) :=
  ⟨(stored_row_unbuffered_and_status [] 780 60 "duo" false
      ⟨36000, 39600, 60, 400, Status.pending⟩ ⟨36000, 39600, 60, 0, Status.blocked⟩).1
      enter_phone_commit_eval,
   (stored_row_unbuffered_and_status [] 780 60 "duo" false
      ⟨36000, 39600, 60, 400, Status.pending⟩ ⟨36000, 39600, 60, 0, Status.blocked⟩).2
      admin_block_commit_eval⟩

/-- Claim C10: the pricing function is total and charges the evening
rate for every minute whose local time of day lies outside the day band
13:00 to 18:00, including minutes entirely outside the operating
window: the interval 10:00 to 11:00 prices at 500. -/
theorem evening_rate_outside_day_band :
    (∀ m : ℤ, (m % 1440 < 13 * 60 ∨ 18 * 60 ≤ m % 1440) → minuteRate m = EVE_RATE) ∧
    price_for_interval 600 660 "duo" false = 500 := by
  refine ⟨?_, price_600_660⟩
  intro m hm
  unfold minuteRate
  rw [if_neg (by omega)]

theorem evening_rate_witness : minuteRate 600 = EVE_RATE :=
  evening_rate_outside_day_band.1 600 (Or.inl (by decide))

end GameRoomBot
